import Mathlib

/-!
# A shallow embedding of `sqliteKV.py` (the `KV` class)

The store keeps two SQLite tables:

* `vals(ID INTEGER PRIMARY KEY ASC, value TEXT UNIQUE NOT NULL)`
* `keys(key TEXT UNIQUE NOT NULL, valueID INTEGER NOT NULL REFERENCES vals(ID))`
  with a unique index on `key`.

We model each table as a list of rows in rowid (insertion) order, SQL statements
as functions over that state, and Python exceptions (`KeyError`,
`sqlite3.IntegrityError`, `NotImplementedError`) as an `Except` error type.
SQLite assigns to a newly inserted `vals` row the rowid `max existing rowid + 1`
(1 on an empty table); an empty `IN ()` list matches no row (SQLite accepts it).
-/

namespace SQLiteKV

/-- A row of the `vals` table: `(ID, value)`. -/
abbrev ValRow := Nat × String

/-- A row of the `keys` table: `(key, valueID)`. -/
abbrev KeyRow := String × Nat

/-- The store state: the contents of the two tables, in rowid order. -/
structure DB where
  vals : List ValRow
  keys : List KeyRow
deriving DecidableEq, Repr

/-- The state right after the schema bootstrap of `KV.__init__` on a fresh file. -/
def emptyDB : DB := ⟨[], []⟩

/-- Exceptions the Python methods can raise. -/
inductive KVError where
  /-- Python `KeyError` (from `__getitem__`, or a dict lookup in `putmany`). -/
  | keyNotFound (k : String)
  /-- `sqlite3.IntegrityError` from a UNIQUE constraint violation. -/
  | constraintViolation
  /-- `NotImplementedError` raised by `delete`. -/
  | notImplemented
  /-- `TypeError` from subscripting a `None` row (unreachable re-select branch). -/
  | rowMissing
deriving DecidableEq, Repr

/-- Largest `vals` rowid, 0 when the table is empty. -/
def maxID (db : DB) : Nat := (db.vals.map Prod.fst).foldr Nat.max 0

/-- The rowid SQLite assigns to the next inserted `vals` row. -/
def nextID (db : DB) : Nat := maxID db + 1

/-- `KV.get(key)` with the default `None`:
`SELECT keys.key, vals.value FROM keys INNER JOIN vals ON vals.ID=keys.valueID
WHERE keys.key=(?)` followed by `fetchone`; `none` models Python `None`. -/
def get (db : DB) (key : String) : Option String :=
  match db.keys.find? (fun r => r.1 == key) with
  | none => none
  | some r =>
    match db.vals.find? (fun s => s.1 == r.2) with
    | none => none
    | some s => some s.2

/-- `KV.get(key, default)` with a string default supplied by the caller. -/
def getD (db : DB) (key default : String) : String :=
  (get db key).getD default

/-- `KV.__getitem__`: same join, but raises `KeyError` when no row matches. -/
def getItem (db : DB) (key : String) : Except KVError String :=
  match get db key with
  | none => .error (.keyNotFound key)
  | some v => .ok v

/-- `INSERT INTO vals(value) VALUES (?)`: enforces the UNIQUE constraint on
`value` and assigns the next rowid. -/
def insertVal (db : DB) (v : String) : Except KVError DB :=
  if db.vals.any (fun r => r.2 == v) then .error .constraintViolation
  else .ok { db with vals := db.vals ++ [(nextID db, v)] }

/-- `INSERT INTO keys(key, valueID) VALUES (?, ?)`: enforces the unique index
on `key`.  (Foreign keys are not enforced: the connection never issues
`PRAGMA foreign_keys=ON`, and SQLite defaults to off.) -/
def insertKey (db : DB) (k : String) (vid : Nat) : Except KVError DB :=
  if db.keys.any (fun r => r.1 == k) then .error .constraintViolation
  else .ok { db with keys := db.keys ++ [(k, vid)] }

/-- `KV.__setitem__(key, value)` (the body of `put`):
only acts when `self.get(key) is None`; then looks the value up in `vals`,
inserting it (and re-selecting its rowid) when absent, and finally inserts the
key row pointing at the value row's ID. -/
def setItem (db : DB) (key value : String) : Except KVError DB :=
  match get db key with
  | some _ => .ok db
  | none =>
    match db.vals.find? (fun r => r.2 == value) with
    | some row => insertKey db key row.1
    | none =>
      match insertVal db value with
      | .error e => .error e
      | .ok db1 =>
        match db1.vals.find? (fun r => r.2 == value) with
        | none => .error .rowMissing
        | some row => insertKey db1 key row.1

/-- `KV.put` is `self[key] = value`, i.e. exactly `__setitem__`. -/
def put (db : DB) (key value : String) : Except KVError DB :=
  setItem db key value

/-- `KV.delete`: `raise NotImplementedError`, unconditionally. -/
def delete (_db : DB) (_key : String) : Except KVError DB :=
  .error .notImplemented

/-- A Python dict mapping value strings to rowids, as used for `value_ids`. -/
def dictInsert (d : String → Option Nat) (v : String) (i : Nat) :
    String → Option Nat :=
  fun x => if x == v then some i else d x

/-- `for row in rows: value_ids[row['value']] = row['ID']` starting from `init`. -/
def dictOfRows (rows : List ValRow) (init : String → Option Nat) :
    String → Option Nat :=
  rows.foldl (fun acc r => dictInsert acc r.2 r.1) init

/-- `executemany("INSERT INTO vals(value) VALUES (?)", entries)`:
the inserts run one after the other; the first constraint violation aborts. -/
def insertVals (db : DB) : List String → Except KVError DB
  | [] => .ok db
  | v :: rest =>
    match insertVal db v with
    | .error e => .error e
    | .ok db' => insertVals db' rest

/-- `executemany("INSERT INTO keys(key, valueID) VALUES (?, ?)", entries)`. -/
def insertKeys (db : DB) : List KeyRow → Except KVError DB
  | [] => .ok db
  | e :: rest =>
    match insertKey db e.1 e.2 with
    | .error err => .error err
    | .ok db' => insertKeys db' rest

/-- The loop building the key-row entry list in `putmany`:
`entries.append((k, value_ids[v]))`; the dict subscript raises `KeyError`
when the value is missing from `value_ids`. -/
def keyEntries (ids : String → Option Nat) :
    List (String × String) → Except KVError (List KeyRow)
  | [] => .ok []
  | p :: rest =>
    match ids p.2 with
    | none => .error (.keyNotFound p.2)
    | some i =>
      match keyEntries ids rest with
      | .error e => .error e
      | .ok l => .ok ((p.1, i) :: l)

/-- `KV.putmany(mapping)`, with the mapping as an association list in the
dict's iteration order.  Python's `set(...)` values are only ever used for
membership tests (`in`, `IN (...)`), so they are modelled by `List.contains`
on the underlying lists. -/
def putmany (db : DB) (m : List (String × String)) : Except KVError DB :=
  -- What values do we already have in the store?
  let values := m.map Prod.snd
  let ids0 := dictOfRows (db.vals.filter (fun r => values.contains r.2))
    (fun _ => none)
  -- We add the others...
  let entries := values.filter (fun v => (ids0 v).isNone)
  match insertVals db entries with
  | .error e => .error e
  | .ok db1 =>
    -- ...and get back their row IDs
    let values2 := values.filter (fun v => (ids0 v).isNone)
    let ids1 := dictOfRows (db1.vals.filter (fun r => values2.contains r.2)) ids0
    -- What keys do we already have in the store?
    let ks := m.map Prod.fst
    let already := (db1.keys.map Prod.fst).filter (fun k => ks.contains k)
    -- Let's add the others!
    let toAdd := m.filter (fun p => !(already.contains p.1))
    match keyEntries ids1 toAdd with
    | .error e => .error e
    | .ok ents => insertKeys db1 ents

/-- Sequential single-item writes: `for k, v in m: self.put(k, v)`. -/
def seqPut (db : DB) : List (String × String) → Except KVError DB
  | [] => .ok db
  | p :: rest =>
    match setItem db p.1 p.2 with
    | .error e => .error e
    | .ok db' => seqPut db' rest

/-- The values of the mapping `m` that are not yet stored in `db.vals`,
in iteration order, with multiplicity. -/
def newVals (db : DB) (m : List (String × String)) : List String :=
  (m.map Prod.snd).filter (fun v => !((db.vals.map Prod.snd).contains v))

/-- New value rows numbered with consecutive rowids starting at `n`. -/
def numberVals (n : Nat) : List String → List ValRow
  | [] => []
  | v :: rest => (n, v) :: numberVals (n + 1) rest

/-- The rowid of the first `vals` row holding `v` (0 when there is none). -/
def idOf (vals : List ValRow) (v : String) : Nat :=
  match vals.find? (fun r => r.2 == v) with
  | some r => r.1
  | none => 0

/-- The state `putmany db m` produces when it succeeds: the missing values
appended with fresh consecutive rowids, then a key row for every pair of `m`
whose key is not already present, referencing its value's rowid. -/
def batchResult (db : DB) (m : List (String × String)) : DB :=
  let vals' := db.vals ++ numberVals (nextID db) (newVals db m)
  { vals := vals',
    keys := db.keys ++
      (m.filter (fun p => !((db.keys.map Prod.fst).contains p.1))).map
        (fun p => (p.1, idOf vals' p.2)) }

/-- The state invariants of the schema: `vals.ID` is a primary key,
`vals.value` and `keys.key` are UNIQUE, and every key row references an
existing value row (referential integrity). -/
def WF (db : DB) : Prop :=
  (db.vals.map Prod.fst).Nodup ∧
  (db.vals.map Prod.snd).Nodup ∧
  (db.keys.map Prod.fst).Nodup ∧
  ∀ r ∈ db.keys, ∃ s ∈ db.vals, s.1 = r.2

instance (db : DB) : Decidable (WF db) := by
  unfold WF; infer_instance

/-! ## Rowid arithmetic -/

theorem le_foldr_max {l : List Nat} {x : Nat} (hx : x ∈ l) :
    x ≤ l.foldr Nat.max 0 := by
  induction l with
  | nil => cases hx
  | cons a t ih =>
    rcases List.mem_cons.mp hx with h | h
    · subst h; exact Nat.le_max_left _ _
    · exact Nat.le_trans (ih h) (Nat.le_max_right _ _)

theorem foldr_max_eq {l : List Nat} {a : Nat} (h : ∀ x ∈ l, x ≤ a) :
    l.foldr Nat.max a = a := by
  induction l with
  | nil => rfl
  | cons b t ih =>
    have hb := h b (List.mem_cons_self _ _)
    rw [List.foldr_cons, ih (fun x hx => h x (List.mem_cons_of_mem _ hx))]
    exact Nat.max_eq_right hb

theorem id_lt_nextID {db : DB} {r : ValRow} (hr : r ∈ db.vals) :
    r.1 < nextID db :=
  Nat.lt_succ_of_le (le_foldr_max (List.mem_map_of_mem Prod.fst hr))

theorem maxID_snoc (db : DB) (v : String) (ks : List KeyRow) :
    maxID ⟨db.vals ++ [(nextID db, v)], ks⟩ = nextID db := by
  unfold maxID
  simp only [List.map_append, List.map_cons, List.map_nil, List.foldr_append,
    List.foldr_cons, List.foldr_nil, Nat.max_zero]
  exact foldr_max_eq (fun x hx => Nat.le_of_lt (Nat.lt_succ_of_le (le_foldr_max hx)))

theorem nextID_snoc (db : DB) (v : String) (ks : List KeyRow) :
    nextID ⟨db.vals ++ [(nextID db, v)], ks⟩ = nextID db + 1 := by
  have h := maxID_snoc db v ks
  unfold nextID at h ⊢
  rw [h]

/-! ## `find?` and `Nodup` toolbox -/

theorem find?_fresh {l : List ValRow} {n : Nat} (h : ∀ r ∈ l, r.1 < n) :
    l.find? (fun s => s.1 == n) = none := by
  rw [List.find?_eq_none]
  intro r hr hc
  exact absurd (by simpa using hc) (Nat.ne_of_lt (h r hr))

theorem eq_of_mem_nodup_fst {α β : Type} {l : List (α × β)}
    (h : (l.map Prod.fst).Nodup) {p q : α × β} (hp : p ∈ l) (hq : q ∈ l)
    (he : p.1 = q.1) : p = q := by
  induction l with
  | nil => cases hp
  | cons a t ih =>
    rw [List.map_cons, List.nodup_cons] at h
    rcases List.mem_cons.mp hp with hp1 | hp1 <;>
      rcases List.mem_cons.mp hq with hq1 | hq1
    · rw [hp1, hq1]
    · exfalso; apply h.1; rw [hp1] at he; rw [he]
      exact List.mem_map_of_mem Prod.fst hq1
    · exfalso; apply h.1; rw [hq1] at he; rw [← he]
      exact List.mem_map_of_mem Prod.fst hp1
    · exact ih h.2 hp1 hq1

theorem find?_of_mem_nodup_fst {α β : Type} [BEq α] [LawfulBEq α]
    {l : List (α × β)} (h : (l.map Prod.fst).Nodup) {r : α × β} (hr : r ∈ l) :
    l.find? (fun s => s.1 == r.1) = some r := by
  have hne : l.find? (fun s => s.1 == r.1) ≠ none := by
    intro hn
    exact absurd (by simp) (List.find?_eq_none.mp hn r hr)
  obtain ⟨s, hs⟩ := Option.ne_none_iff_exists'.mp hne
  have h1 : s.1 = r.1 := by simpa using List.find?_some hs
  rw [hs, eq_of_mem_nodup_fst h (List.mem_of_find?_eq_some hs) hr h1]

theorem find?_filter_eq {α : Type} {p q : α → Bool} {l : List α}
    (h : ∀ a ∈ l, p a = true → q a = true) :
    (l.filter q).find? p = l.find? p := by
  induction l with
  | nil => rfl
  | cons a t ih =>
    by_cases hq : q a
    · rw [List.filter_cons_of_pos hq]
      by_cases hp : p a
      · rw [List.find?_cons_of_pos _ hp, List.find?_cons_of_pos _ hp]
      · rw [List.find?_cons_of_neg _ hp, List.find?_cons_of_neg _ hp]
        exact ih (fun x hx => h x (List.mem_cons_of_mem _ hx))
    · rw [List.filter_cons_of_neg hq]
      have hp : ¬ p a := fun hpa => hq (h a (List.mem_cons_self _ _) hpa)
      rw [List.find?_cons_of_neg _ hp]
      exact ih (fun x hx => h x (List.mem_cons_of_mem _ hx))

/-! ## Reads -/

theorem get_eq_none {db : DB} {k : String} (h : k ∉ db.keys.map Prod.fst) :
    get db k = none := by
  unfold get
  have hf : db.keys.find? (fun r => r.1 == k) = none := by
    rw [List.find?_eq_none]
    intro r hr hc
    exact h ((by simpa using hc : r.1 = k) ▸ List.mem_map_of_mem Prod.fst hr)
  rw [hf]

theorem get_some_of_mem {db : DB} (hWF : WF db) {k : String}
    (h : k ∈ db.keys.map Prod.fst) : ∃ w, get db k = some w := by
  obtain ⟨r, hr, hrk⟩ := List.mem_map.mp h
  have hne : db.keys.find? (fun s => s.1 == k) ≠ none := by
    intro hn
    exact absurd (by simp [hrk]) (List.find?_eq_none.mp hn r hr)
  obtain ⟨r', hr'⟩ := Option.ne_none_iff_exists'.mp hne
  obtain ⟨s, hs, hsid⟩ := hWF.2.2.2 r' (List.mem_of_find?_eq_some hr')
  have hne2 : db.vals.find? (fun t => t.1 == r'.2) ≠ none := by
    intro hn
    exact absurd (by simp [hsid]) (List.find?_eq_none.mp hn s hs)
  obtain ⟨s', hs'⟩ := Option.ne_none_iff_exists'.mp hne2
  refine ⟨s'.2, ?_⟩
  simp only [get, hr', hs']

theorem setItem_noop {db : DB} {k v w : String} (h : get db k = some w) :
    setItem db k v = .ok db := by
  unfold setItem
  rw [h]

theorem find?_fst_eq_none {α β : Type} [BEq α] [LawfulBEq α] {l : List (α × β)}
    {k : α} (h : k ∉ l.map Prod.fst) : l.find? (fun r => r.1 == k) = none := by
  rw [List.find?_eq_none]
  intro r hr hc
  exact h ((eq_of_beq hc) ▸ List.mem_map_of_mem Prod.fst hr)

theorem find?_snd_eq_none {l : List ValRow} {v : String}
    (h : v ∉ l.map Prod.snd) : l.find? (fun r => r.2 == v) = none := by
  rw [List.find?_eq_none]
  intro r hr hc
  exact h ((eq_of_beq hc) ▸ List.mem_map_of_mem Prod.snd hr)

theorem keys_any_eq_false {l : List KeyRow} {k : String}
    (h : k ∉ l.map Prod.fst) : l.any (fun r => r.1 == k) = false := by
  rw [List.any_eq_false]
  intro r hr hc
  exact h ((eq_of_beq hc) ▸ List.mem_map_of_mem Prod.fst hr)

theorem vals_any_eq_false {l : List ValRow} {v : String}
    (h : v ∉ l.map Prod.snd) : l.any (fun r => r.2 == v) = false := by
  rw [List.any_eq_false]
  intro r hr hc
  exact h ((eq_of_beq hc) ▸ List.mem_map_of_mem Prod.snd hr)

/-- Reduction of `insertVal` on a value absent from the table. -/
theorem insertVal_ok {db : DB} {v : String} (h : v ∉ db.vals.map Prod.snd) :
    insertVal db v = .ok ⟨db.vals ++ [(nextID db, v)], db.keys⟩ := by
  unfold insertVal
  rw [vals_any_eq_false h]
  rfl

/-- Reduction of `insertKey` on a key absent from the table. -/
theorem insertKey_ok {db : DB} {k : String} {vid : Nat}
    (h : k ∉ db.keys.map Prod.fst) :
    insertKey db k vid = .ok ⟨db.vals, db.keys ++ [(k, vid)]⟩ := by
  unfold insertKey
  rw [keys_any_eq_false h]
  rfl

/-- Reduction of `setItem` when the key is absent and the value is already
stored: only a key row is appended, pointing at the existing value row. -/
theorem setItem_old {db : DB} {k v : String} {row : ValRow}
    (hv : db.vals.find? (fun r => r.2 == v) = some row)
    (hk : k ∉ db.keys.map Prod.fst) :
    setItem db k v = .ok ⟨db.vals, db.keys ++ [(k, row.1)]⟩ := by
  have hg : get db k = none := get_eq_none hk
  simp only [setItem, hg, hv, insertKey_ok hk]

/-- Reduction of `setItem` when the key is absent and the value is new: a
value row with the fresh rowid is appended, then the key row. -/
theorem setItem_new {db : DB} {k v : String}
    (hv : db.vals.find? (fun r => r.2 == v) = none)
    (hk : k ∉ db.keys.map Prod.fst) :
    setItem db k v =
      .ok ⟨db.vals ++ [(nextID db, v)], db.keys ++ [(k, nextID db)]⟩ := by
  have hg : get db k = none := get_eq_none hk
  have hnotin : v ∉ db.vals.map Prod.snd := by
    intro hm
    obtain ⟨r, hr, hrv⟩ := List.mem_map.mp hm
    have hne := List.find?_eq_none.mp hv r hr
    simp [hrv] at hne
  have h1 := insertVal_ok hnotin
  have h2 : (db.vals ++ [(nextID db, v)]).find? (fun r => r.2 == v) =
      some (nextID db, v) := by
    rw [List.find?_append, hv]
    simp
  have h3 : insertKey (⟨db.vals ++ [(nextID db, v)], db.keys⟩ : DB) k
      (nextID db) = .ok ⟨db.vals ++ [(nextID db, v)], db.keys ++ [(k, nextID db)]⟩ :=
    insertKey_ok hk
  simp only [setItem, hg, hv, h1, h2, h3]

/-- The join of a fresh value row: looking the fresh rowid up in the extended
table finds exactly the appended row. -/
theorem find?_fresh_snoc (db : DB) (v : String) :
    (db.vals ++ [(nextID db, v)]).find? (fun s => s.1 == nextID db) =
      some (nextID db, v) := by
  rw [List.find?_append, find?_fresh (fun r hr => id_lt_nextID hr)]
  simp

/-! ## Claim C4 -/

/-- Claim C4: for every key `k` already present in the store (mapped to value
`v`) and every value `v2`, `put k v2` leaves the entire store state unchanged
— no row is added or modified — and `get k` still returns `v` (write-once). -/
theorem put_write_once (db : DB) (k v v2 : String) (h : get db k = some v) :
    put db k v2 = .ok db ∧ get db k = some v :=
  ⟨setItem_noop h, h⟩

/-- Concrete instance of `put_write_once`: a second write to key "a" is
ignored. -/
theorem put_write_once_w :
    put (⟨[(1, "x")], [("a", 1)]⟩ : DB) "a" "y" = .ok (⟨[(1, "x")], [("a", 1)]⟩ : DB) ∧
    get (⟨[(1, "x")], [("a", 1)]⟩ : DB) "a" = some "x" :=
  put_write_once ⟨[(1, "x")], [("a", 1)]⟩ "a" "x" "y" (by rfl)

/-! ## Claim C7 -/

/-- Counterexample to claim C7: the existence check in `__setitem__` is
`self.get(key) is None`, not a truthiness test, so a key mapped to the empty
string is treated as present and `put` is a no-op on it — it is not treated
as absent. -/
theorem falsy_absent_cex :
    get (⟨[(1, "")], [("a", 1)]⟩ : DB) "a" = some "" ∧
    put (⟨[(1, "")], [("a", 1)]⟩ : DB) "a" "y" = .ok (⟨[(1, "")], [("a", 1)]⟩ : DB) :=
  ⟨rfl, rfl⟩

/-- Claim C7 (amended): for every key `k` currently mapped to the empty
string, the single-item write path treats `k` as present (the check is
`is None`, and the lenient accessor returns the empty string, not `None`),
so the no-op-on-existing-key behaviour applies to such a key. -/
theorem put_on_empty_value_noop (db : DB) (k v2 : String)
    (h : get db k = some "") :
    put db k v2 = .ok db ∧ get db k = some "" :=
  ⟨setItem_noop h, h⟩

/-- Concrete instance of `put_on_empty_value_noop`. -/
theorem put_on_empty_value_noop_w :
    put (⟨[(2, "")], [("e", 2)]⟩ : DB) "e" "y" = .ok (⟨[(2, "")], [("e", 2)]⟩ : DB) ∧
    get (⟨[(2, "")], [("e", 2)]⟩ : DB) "e" = some "" :=
  put_on_empty_value_noop ⟨[(2, "")], [("e", 2)]⟩ "e" "y" (by rfl)

/-! ## Claim C8 -/

/-- Claim C8: for every key absent from the store, the strict accessor
(`__getitem__`) fails with `KeyError`, while the lenient accessor (`get` with
a default) returns exactly the caller-supplied default.  Both are reads of
the state and return no modified state. -/
theorem missing_key_errors (db : DB) (k d : String)
    (h : k ∉ db.keys.map Prod.fst) :
    getItem db k = .error (.keyNotFound k) ∧ getD db k d = d := by
  have hg := get_eq_none h
  refine ⟨?_, ?_⟩
  · unfold getItem; rw [hg]
  · unfold getD; rw [hg]; rfl

/-- Concrete instance of `missing_key_errors` at key "nope". -/
theorem missing_key_errors_w :
    getItem emptyDB "nope" = .error (.keyNotFound "nope") ∧
    getD emptyDB "nope" "D" = "D" :=
  missing_key_errors emptyDB "nope" "D" (by simp [emptyDB])

/-! ## Claim C6 -/

/-- Claim C6 fails on the code: `putmany` builds its value-insert list from
`mapping.values()` skipping only values present in the table before the call,
so a mapping whose two keys share the value "X" (absent from the store)
appends "X" twice and the second `INSERT` violates the UNIQUE constraint,
raising `sqlite3.IntegrityError` instead of inserting once and succeeding. -/
theorem putmany_shared_new_value_crashes :
    putmany emptyDB [("a", "X"), ("b", "X")] = .error .constraintViolation :=
  rfl

/-! ## Counterexample for claim C2 -/

/-- Counterexample to claim C2: the mapping `[("k1","V"),("k2","V")]` has no
key collision with the empty store, yet `putmany` raises a
uniqueness-constraint violation while the sequential `put` loop succeeds —
so batch and sequential writes are not unconditionally equivalent. -/
theorem batch_equivalence_cex :
    putmany emptyDB [("k1", "V"), ("k2", "V")] = .error .constraintViolation ∧
    seqPut emptyDB [("k1", "V"), ("k2", "V")] =
      .ok ⟨[(1, "V")], [("k1", 1), ("k2", 1)]⟩ :=
  ⟨rfl, rfl⟩

/-! ## Counterexample for claim C10 -/

/-- Counterexample to claim C10 as universally stated: in the store mapping
"kp" to "w", the mapping `[("kp","v"),("k2","v")]` contains the pair
`("kp","v")` with key "kp" present and value "v" absent, yet `putmany` does
not insert a value row for "v": it raises a uniqueness-constraint violation
(both occurrences of "v" land in the insert list). -/
theorem putmany_orphan_cex :
    get (⟨[(1, "w")], [("kp", 1)]⟩ : DB) "kp" = some "w" ∧
    putmany (⟨[(1, "w")], [("kp", 1)]⟩ : DB) [("kp", "v"), ("k2", "v")] =
      .error .constraintViolation :=
  ⟨rfl, rfl⟩

/-! ## Counterexample for claim C1 -/

/-- Counterexample to claim C1 as stated: with key "k1" already mapped to
"w", the value "v" is absent from the store and "k1" ≠ "k2", yet after
`put "k1" "v"; put "k2" "v"` the two keys do not resolve to the same value:
the first `put` is a write-once no-op. -/
theorem dedup_cex :
    (put (⟨[(1, "w")], [("k1", 1)]⟩ : DB) "k1" "v").bind
      (fun d => put d "k2" "v") =
      .ok (⟨[(1, "w"), (2, "v")], [("k1", 1), ("k2", 2)]⟩ : DB) ∧
    get (⟨[(1, "w"), (2, "v")], [("k1", 1), ("k2", 2)]⟩ : DB) "k1" ≠
      get (⟨[(1, "w"), (2, "v")], [("k1", 1), ("k2", 2)]⟩ : DB) "k2" := by
  refine ⟨rfl, ?_⟩
  decide

/-! ## Claim C3 -/

/-- Claim C3: round-trip — for every key `k` not present in the store and
every string value `v`, after `put k v` the read `get k` returns `v`. -/
theorem put_roundtrip (db : DB) (k v : String) (hWF : WF db)
    (h : k ∉ db.keys.map Prod.fst) :
    ∃ db', put db k v = .ok db' ∧ get db' k = some v := by
  cases hv : db.vals.find? (fun r => r.2 == v) with
  | some row =>
    refine ⟨⟨db.vals, db.keys ++ [(k, row.1)]⟩, setItem_old hv h, ?_⟩
    have hfk : (db.keys ++ [(k, row.1)]).find? (fun r => r.1 == k) =
        some (k, row.1) := by
      rw [List.find?_append, find?_fst_eq_none h]
      simp
    have hfv : db.vals.find? (fun s => s.1 == row.1) = some row :=
      find?_of_mem_nodup_fst hWF.1 (List.mem_of_find?_eq_some hv)
    have hrv : row.2 = v := by simpa using List.find?_some hv
    simp only [get, hfk, hfv, hrv]
  | none =>
    refine ⟨⟨db.vals ++ [(nextID db, v)], db.keys ++ [(k, nextID db)]⟩,
      setItem_new hv h, ?_⟩
    have hfk : (db.keys ++ [(k, nextID db)]).find? (fun r => r.1 == k) =
        some (k, nextID db) := by
      rw [List.find?_append, find?_fst_eq_none h]
      simp
    simp only [get, hfk, find?_fresh_snoc]

/-- Concrete instance of `put_roundtrip` on the empty store. -/
theorem put_roundtrip_w :
    ∃ db', put emptyDB "a" "x" = .ok db' ∧ get db' "a" = some "x" :=
  put_roundtrip emptyDB "a" "x" (by decide) (by simp [emptyDB])

/-! ## Claim C1 -/

/-- Claim C1 (amended): value deduplication — for distinct keys `k1 ≠ k2`,
neither present in the store, and a value `v` not yet stored, after
`put k1 v; put k2 v` both keys resolve to `v`, both key rows reference the
same value rowid, and the `vals` table grew by exactly one row, not two. -/
theorem dedup_two_puts (db : DB) (k1 k2 v : String) (hWF : WF db)
    (h1 : k1 ∉ db.keys.map Prod.fst) (h2 : k2 ∉ db.keys.map Prod.fst)
    (hk : k1 ≠ k2) (hv : v ∉ db.vals.map Prod.snd) :
    ∃ db' i,
      (put db k1 v).bind (fun d => put d k2 v) = .ok db' ∧
      get db' k1 = some v ∧ get db' k2 = some v ∧
      db'.keys.find? (fun r => r.1 == k1) = some (k1, i) ∧
      db'.keys.find? (fun r => r.1 == k2) = some (k2, i) ∧
      db'.vals.length = db.vals.length + 1 := by
  have hfv0 : db.vals.find? (fun r => r.2 == v) = none := find?_snd_eq_none hv
  have step1 : put db k1 v =
      .ok ⟨db.vals ++ [(nextID db, v)], db.keys ++ [(k1, nextID db)]⟩ :=
    setItem_new hfv0 h1
  have hk2A : k2 ∉ (db.keys ++ [(k1, nextID db)]).map Prod.fst := by
    rw [List.map_append]
    intro hm
    rcases List.mem_append.mp hm with hm | hm
    · exact h2 hm
    · simp at hm
      exact hk hm.symm
  have hfvA : (db.vals ++ [(nextID db, v)]).find? (fun r => r.2 == v) =
      some (nextID db, v) := by
    rw [List.find?_append, hfv0]
    simp
  have step2 : setItem (⟨db.vals ++ [(nextID db, v)], db.keys ++ [(k1, nextID db)]⟩ : DB) k2 v =
      .ok ⟨db.vals ++ [(nextID db, v)],
        (db.keys ++ [(k1, nextID db)]) ++ [(k2, nextID db)]⟩ := by
    have := @setItem_old ⟨db.vals ++ [(nextID db, v)], db.keys ++ [(k1, nextID db)]⟩
      k2 v (nextID db, v) hfvA hk2A
    simpa using this
  refine ⟨⟨db.vals ++ [(nextID db, v)],
    (db.keys ++ [(k1, nextID db)]) ++ [(k2, nextID db)]⟩, nextID db, ?_, ?_, ?_, ?_, ?_, ?_⟩
  · rw [step1]
    simpa [Except.bind] using step2
  · have hfk : ((db.keys ++ [(k1, nextID db)]) ++ [(k2, nextID db)]).find?
        (fun r => r.1 == k1) = some (k1, nextID db) := by
      rw [List.find?_append, List.find?_append, find?_fst_eq_none h1]
      simp
    simp only [get, hfk, find?_fresh_snoc]
  · have hfk : ((db.keys ++ [(k1, nextID db)]) ++ [(k2, nextID db)]).find?
        (fun r => r.1 == k2) = some (k2, nextID db) := by
      rw [List.find?_append, List.find?_append, find?_fst_eq_none h2]
      have : ¬ (k1 == k2) = true := by simpa using hk
      simp [this]
    simp only [get, hfk, find?_fresh_snoc]
  · rw [List.find?_append, List.find?_append, find?_fst_eq_none h1]
    simp
  · rw [List.find?_append, List.find?_append, find?_fst_eq_none h2]
    have : ¬ (k1 == k2) = true := by simpa using hk
    simp [this]
  · simp

/-- Concrete instance of `dedup_two_puts` on the empty store. -/
theorem dedup_two_puts_w :
    ∃ db' i,
      (put emptyDB "k1" "v").bind (fun d => put d "k2" "v") = .ok db' ∧
      get db' "k1" = some "v" ∧ get db' "k2" = some "v" ∧
      db'.keys.find? (fun r => r.1 == "k1") = some ("k1", i) ∧
      db'.keys.find? (fun r => r.1 == "k2") = some ("k2", i) ∧
      db'.vals.length = emptyDB.vals.length + 1 :=
  dedup_two_puts emptyDB "k1" "k2" "v" (by decide) (by simp [emptyDB])
    (by simp [emptyDB]) (by decide) (by simp [emptyDB])

/-! ## Claim C9 -/

/-- Claim C9: `putmany` on the empty mapping is a no-op on every store state
and does not raise, even though the membership queries are built from an
empty value set and an empty key set (SQLite accepts the empty `IN ()` list,
which matches no row — modelled by `List.contains` on `[]`). -/
theorem putmany_empty_noop (db : DB) : putmany db [] = .ok db := by
  unfold putmany
  simp [insertVals, insertKeys, keyEntries]

/-! ## Membership, numbering and lookup toolbox for the batch algorithm -/

theorem contains_iff {α : Type} [BEq α] [LawfulBEq α] {l : List α} {a : α} :
    l.contains a = true ↔ a ∈ l := by
  induction l with
  | nil => simp
  | cons b t ih => simp [List.contains_cons] at ih ⊢

theorem contains_eq_false_iff {α : Type} [BEq α] [LawfulBEq α] {l : List α}
    {a : α} : l.contains a = false ↔ a ∉ l := by
  rw [← Bool.not_eq_true, not_iff_not]
  exact contains_iff

theorem numberVals_map_snd (n : Nat) (es : List String) :
    (numberVals n es).map Prod.snd = es := by
  induction es generalizing n with
  | nil => rfl
  | cons v rest ih => simp [numberVals, ih]

theorem mem_numberVals {n : Nat} {es : List String} {r : ValRow}
    (hr : r ∈ numberVals n es) : n ≤ r.1 ∧ r.2 ∈ es := by
  induction es generalizing n with
  | nil => cases hr
  | cons v rest ih =>
    rcases List.mem_cons.mp hr with h | h
    · subst h; simp
    · obtain ⟨h1, h2⟩ := ih h
      exact ⟨Nat.le_of_succ_le h1, List.mem_cons_of_mem _ h2⟩

theorem numberVals_fst_nodup (n : Nat) (es : List String) :
    ((numberVals n es).map Prod.fst).Nodup := by
  induction es generalizing n with
  | nil => simp [numberVals]
  | cons v rest ih =>
    simp only [numberVals, List.map_cons, List.nodup_cons]
    refine ⟨?_, ih (n + 1)⟩
    intro hm
    obtain ⟨r, hr, hrn⟩ := List.mem_map.mp hm
    have := (mem_numberVals hr).1
    omega

theorem idOf_spec {l : List ValRow} {v : String} (h : v ∈ l.map Prod.snd) :
    ∃ r, l.find? (fun s => s.2 == v) = some r ∧ r ∈ l ∧ r.1 = idOf l v ∧
      r.2 = v := by
  obtain ⟨r0, hr0, hr0v⟩ := List.mem_map.mp h
  have hne : l.find? (fun s => s.2 == v) ≠ none := by
    intro hn
    exact absurd (by simp [hr0v]) (List.find?_eq_none.mp hn r0 hr0)
  obtain ⟨r, hr⟩ := Option.ne_none_iff_exists'.mp hne
  refine ⟨r, hr, List.mem_of_find?_eq_some hr, ?_, by simpa using List.find?_some hr⟩
  simp only [idOf, hr]

theorem idOf_append_left {A B : List ValRow} {v : String} {r : ValRow}
    (h : A.find? (fun s => s.2 == v) = some r) : idOf (A ++ B) v = r.1 := by
  unfold idOf
  rw [List.find?_append, h]
  rfl

theorem idOf_append_right {A B : List ValRow} {v : String}
    (h : A.find? (fun s => s.2 == v) = none) : idOf (A ++ B) v = idOf B v := by
  unfold idOf
  rw [List.find?_append, h]
  rfl

theorem mem_newVals {db : DB} {m : List (String × String)} {w : String} :
    w ∈ newVals db m ↔ w ∈ m.map Prod.snd ∧ w ∉ db.vals.map Prod.snd := by
  unfold newVals
  rw [List.mem_filter]
  simp [contains_eq_false_iff]

theorem newVals_cons (db : DB) (k v : String) (rest : List (String × String)) :
    newVals db ((k, v) :: rest) =
      if v ∈ db.vals.map Prod.snd then newVals db rest
      else v :: newVals db rest := by
  unfold newVals
  rw [List.map_cons, List.filter_cons]
  by_cases h : v ∈ db.vals.map Prod.snd
  · rw [if_pos h, if_neg]
    simp [contains_iff, h]
  · rw [if_neg h, if_pos]
    simp [contains_eq_false_iff, h]

theorem newVals_addVal {db : DB} {v : String} {ks : List KeyRow}
    {rest : List (String × String)} (hv : v ∉ newVals db rest) :
    newVals ⟨db.vals ++ [(nextID db, v)], ks⟩ rest = newVals db rest := by
  unfold newVals
  apply List.filter_congr
  intro w hw
  by_cases hwA : w ∈ db.vals.map Prod.snd
  · have h1 : ((⟨db.vals ++ [(nextID db, v)], ks⟩ : DB).vals.map Prod.snd).contains w = true := by
      rw [contains_iff, List.map_append]
      exact List.mem_append_left _ hwA
    have h2 : (db.vals.map Prod.snd).contains w = true := contains_iff.mpr hwA
    rw [h1, h2]
  · have hwv : w ≠ v := by
      intro he
      exact hv (he ▸ mem_newVals.mpr ⟨hw, hwA⟩)
    have h1 : ((⟨db.vals ++ [(nextID db, v)], ks⟩ : DB).vals.map Prod.snd).contains w = false := by
      rw [contains_eq_false_iff, List.map_append]
      intro hm
      rcases List.mem_append.mp hm with hm | hm
      · exact hwA hm
      · simp at hm; exact hwv hm
    have h2 : (db.vals.map Prod.snd).contains w = false := contains_eq_false_iff.mpr hwA
    rw [h1, h2]

/-! ## Inversions for single inserts -/

theorem insertVal_ok_inv {db db' : DB} {v : String}
    (h : insertVal db v = .ok db') :
    v ∉ db.vals.map Prod.snd ∧ db' = ⟨db.vals ++ [(nextID db, v)], db.keys⟩ := by
  unfold insertVal at h
  by_cases hc : db.vals.any (fun r => r.2 == v) = true
  · rw [if_pos hc] at h; cases h
  · rw [if_neg hc] at h
    refine ⟨?_, by cases h; rfl⟩
    intro hm
    obtain ⟨r, hr, hrv⟩ := List.mem_map.mp hm
    exact hc (List.any_eq_true.mpr ⟨r, hr, by simp [hrv]⟩)

theorem insertKey_ok_inv {db db' : DB} {k : String} {vid : Nat}
    (h : insertKey db k vid = .ok db') :
    k ∉ db.keys.map Prod.fst ∧ db' = ⟨db.vals, db.keys ++ [(k, vid)]⟩ := by
  unfold insertKey at h
  by_cases hc : db.keys.any (fun r => r.1 == k) = true
  · rw [if_pos hc] at h; cases h
  · rw [if_neg hc] at h
    refine ⟨?_, by cases h; rfl⟩
    intro hm
    obtain ⟨r, hr, hrk⟩ := List.mem_map.mp hm
    exact hc (List.any_eq_true.mpr ⟨r, hr, by simp [hrk]⟩)

/-! ## Preservation of the invariants by single inserts -/

theorem WF_addVal {db : DB} {v : String} (hWF : WF db)
    (hv : v ∉ db.vals.map Prod.snd) :
    WF ⟨db.vals ++ [(nextID db, v)], db.keys⟩ := by
  obtain ⟨w1, w2, w3, w4⟩ := hWF
  refine ⟨?_, ?_, w3, ?_⟩
  · rw [List.map_append, List.nodup_append]
    refine ⟨w1, by simp, ?_⟩
    intro x hx hy
    simp only [List.map_cons, List.map_nil, List.mem_singleton] at hy
    subst hy
    obtain ⟨r, hr, hrx⟩ := List.mem_map.mp hx
    exact absurd hrx (Nat.ne_of_lt (id_lt_nextID hr))
  · rw [List.map_append, List.nodup_append]
    refine ⟨w2, by simp, ?_⟩
    intro x hx hy
    simp only [List.map_cons, List.map_nil, List.mem_singleton] at hy
    subst hy
    exact hv hx
  · intro r hr
    obtain ⟨s, hs, hsi⟩ := w4 r hr
    exact ⟨s, List.mem_append_left _ hs, hsi⟩

theorem WF_addKey {db : DB} {k : String} {vid : Nat} (hWF : WF db)
    (hk : k ∉ db.keys.map Prod.fst) (hvid : ∃ s ∈ db.vals, s.1 = vid) :
    WF ⟨db.vals, db.keys ++ [(k, vid)]⟩ := by
  obtain ⟨w1, w2, w3, w4⟩ := hWF
  refine ⟨w1, w2, ?_, ?_⟩
  · rw [List.map_append, List.nodup_append]
    refine ⟨w3, by simp, ?_⟩
    intro x hx hy
    simp only [List.map_cons, List.map_nil, List.mem_singleton] at hy
    subst hy
    exact hk hx
  · intro r hr
    rcases List.mem_append.mp hr with hr | hr
    · exact w4 r hr
    · simp only [List.mem_singleton] at hr
      subst hr
      exact hvid

/-! ## The bulk-insert folds -/

theorem insertVals_ok_of {db : DB} {es : List String} (hnd : es.Nodup)
    (hfresh : ∀ v ∈ es, v ∉ db.vals.map Prod.snd) :
    insertVals db es = .ok ⟨db.vals ++ numberVals (nextID db) es, db.keys⟩ := by
  induction es generalizing db with
  | nil => simp [insertVals, numberVals]
  | cons v rest ih =>
    rw [List.nodup_cons] at hnd
    have h1 := insertVal_ok (hfresh v (List.mem_cons_self _ _))
    have hfresh' : ∀ w ∈ rest,
        w ∉ (⟨db.vals ++ [(nextID db, v)], db.keys⟩ : DB).vals.map Prod.snd := by
      intro w hw
      rw [List.map_append]
      intro hm
      rcases List.mem_append.mp hm with hm | hm
      · exact hfresh w (List.mem_cons_of_mem _ hw) hm
      · simp only [List.map_cons, List.map_nil, List.mem_singleton] at hm
        exact hnd.1 (hm ▸ hw)
    have h2 := ih hnd.2 hfresh'
    simp only [insertVals, h1, h2, nextID_snoc]
    simp [numberVals, List.append_assoc]

theorem insertVals_ok_inv {db db' : DB} {es : List String}
    (h : insertVals db es = .ok db') :
    es.Nodup ∧ (∀ v ∈ es, v ∉ db.vals.map Prod.snd) ∧
    (∃ l, db'.vals = db.vals ++ l) ∧ db'.keys = db.keys := by
  induction es generalizing db with
  | nil =>
    simp only [insertVals] at h
    cases h
    exact ⟨List.nodup_nil, by simp, ⟨[], by simp⟩, rfl⟩
  | cons v rest ih =>
    simp only [insertVals] at h
    cases hiv : insertVal db v with
    | error e => rw [hiv] at h; cases h
    | ok db1 =>
      rw [hiv] at h
      obtain ⟨hvnotin, hdb1⟩ := insertVal_ok_inv hiv
      subst hdb1
      obtain ⟨hnd, hfr, ⟨l, hl⟩, hk⟩ := ih h
      refine ⟨?_, ?_, ⟨(nextID db, v) :: l, by rw [hl]; simp⟩, hk⟩
      · rw [List.nodup_cons]
        refine ⟨?_, hnd⟩
        intro hvrest
        apply hfr v hvrest
        rw [List.map_append]
        simp
      · intro w hw
        rcases List.mem_cons.mp hw with rfl | hw'
        · exact hvnotin
        · intro hmem
          exact hfr w hw' (by rw [List.map_append]; exact List.mem_append_left _ hmem)

theorem insertKeys_ok_of {db : DB} {es : List KeyRow}
    (hnd : (es.map Prod.fst).Nodup)
    (habs : ∀ e ∈ es, e.1 ∉ db.keys.map Prod.fst) :
    insertKeys db es = .ok ⟨db.vals, db.keys ++ es⟩ := by
  induction es generalizing db with
  | nil => simp [insertKeys]
  | cons e rest ih =>
    rw [List.map_cons, List.nodup_cons] at hnd
    have h1 := @insertKey_ok db e.1 e.2 (habs e (List.mem_cons_self _ _))
    have habs' : ∀ e' ∈ rest,
        e'.1 ∉ (⟨db.vals, db.keys ++ [(e.1, e.2)]⟩ : DB).keys.map Prod.fst := by
      intro e' he'
      rw [List.map_append]
      intro hm
      rcases List.mem_append.mp hm with hm | hm
      · exact habs e' (List.mem_cons_of_mem _ he') hm
      · simp only [List.map_cons, List.map_nil, List.mem_singleton] at hm
        exact hnd.1 (hm ▸ List.mem_map_of_mem Prod.fst he')
    have h2 := ih hnd.2 habs'
    simp only [insertKeys, h1, h2]
    simp [List.append_assoc]

theorem insertKeys_keeps_vals {db db' : DB} {es : List KeyRow}
    (h : insertKeys db es = .ok db') : db'.vals = db.vals := by
  induction es generalizing db with
  | nil => cases h; rfl
  | cons e rest ih =>
    simp only [insertKeys] at h
    cases hik : insertKey db e.1 e.2 with
    | error err => rw [hik] at h; cases h
    | ok db1 =>
      simp only [hik] at h
      obtain ⟨-, hdb1⟩ := insertKey_ok_inv hik
      rw [ih h, hdb1]

/-! ## The `value_ids` dict -/

theorem dictOfRows_cons (r : ValRow) (rest : List ValRow)
    (init : String → Option Nat) :
    dictOfRows (r :: rest) init = dictOfRows rest (dictInsert init r.2 r.1) :=
  rfl

theorem dictOfRows_eq_none_iff {rows : List ValRow}
    {init : String → Option Nat} {v : String} :
    dictOfRows rows init v = none ↔
      (∀ r ∈ rows, r.2 ≠ v) ∧ init v = none := by
  induction rows generalizing init with
  | nil => simp [dictOfRows]
  | cons r rest ih =>
    rw [dictOfRows_cons, ih]
    unfold dictInsert
    by_cases hv : v = r.2
    · subst hv
      simp [List.forall_mem_cons]
    · have hv' : r.2 ≠ v := fun he => hv he.symm
      rw [if_neg (by simp [hv])]
      simp [List.forall_mem_cons, hv']

theorem dictOfRows_eq_find? {rows : List ValRow} {init : String → Option Nat}
    {v : String} (hnd : (rows.map Prod.snd).Nodup) :
    dictOfRows rows init v =
      match rows.find? (fun r => r.2 == v) with
      | some r => some r.1
      | none => init v := by
  induction rows generalizing init with
  | nil => rfl
  | cons r rest ih =>
    rw [List.map_cons, List.nodup_cons] at hnd
    rw [dictOfRows_cons, ih hnd.2]
    by_cases hv : r.2 = v
    · have hfr : rest.find? (fun s => s.2 == v) = none := by
        rw [List.find?_eq_none]
        intro s hs hc
        exact hnd.1 ((hv ▸ (eq_of_beq hc : s.2 = v)) ▸
          List.mem_map_of_mem Prod.snd hs)
      rw [hfr, List.find?_cons_of_pos _ (by simp [hv])]
      simp [dictInsert, hv]
    · rw [List.find?_cons_of_neg _ (by simpa using hv)]
      cases hfr : rest.find? (fun s => s.2 == v) with
      | some s => simp
      | none =>
        simp only [dictInsert]
        rw [if_neg (by simp; exact fun he => hv he.symm)]

theorem dictOfRows_mem {rows : List ValRow} {init : String → Option Nat}
    {v : String} {i : Nat} (h : dictOfRows rows init v = some i) :
    (∃ r ∈ rows, r.1 = i) ∨ init v = some i := by
  induction rows generalizing init with
  | nil => exact Or.inr h
  | cons r rest ih =>
    rw [dictOfRows_cons] at h
    rcases ih h with ⟨s, hs, hsi⟩ | hinit
    · exact Or.inl ⟨s, List.mem_cons_of_mem _ hs, hsi⟩
    · unfold dictInsert at hinit
      by_cases hv : (v == r.2) = true
      · rw [if_pos hv] at hinit
        cases hinit
        exact Or.inl ⟨r, List.mem_cons_self _ _, rfl⟩
      · rw [if_neg hv] at hinit
        exact Or.inr hinit

/-! ## `keyEntries` -/

theorem keyEntries_ok_of {ids : String → Option Nat}
    {ps : List (String × String)} {f : String × String → Nat}
    (h : ∀ p ∈ ps, ids p.2 = some (f p)) :
    keyEntries ids ps = .ok (ps.map (fun p => (p.1, f p))) := by
  induction ps with
  | nil => rfl
  | cons p rest ih =>
    simp only [keyEntries, h p (List.mem_cons_self _ _),
      ih (fun q hq => h q (List.mem_cons_of_mem _ hq))]
    rfl

theorem keyEntries_mem {ids : String → Option Nat}
    {ps : List (String × String)} {ents : List KeyRow}
    (h : keyEntries ids ps = .ok ents) :
    ∀ e ∈ ents, ∃ p ∈ ps, e.1 = p.1 ∧ ids p.2 = some e.2 := by
  induction ps generalizing ents with
  | nil =>
    simp only [keyEntries] at h
    cases h
    intro e he
    cases he
  | cons p rest ih =>
    simp only [keyEntries] at h
    cases hid : ids p.2 with
    | none => rw [hid] at h; cases h
    | some i =>
      rw [hid] at h
      cases hke : keyEntries ids rest with
      | error e => rw [hke] at h; cases h
      | ok l =>
        rw [hke] at h
        cases h
        intro e he
        rcases List.mem_cons.mp he with rfl | he'
        · exact ⟨p, List.mem_cons_self _ _, rfl, hid⟩
        · obtain ⟨q, hq, h1, h2⟩ := ih hke e he'
          exact ⟨q, List.mem_cons_of_mem _ hq, h1, h2⟩

/-! ## Preservation of the invariants by all operations -/

theorem WF_setItem {db db' : DB} {k v : String} (hWF : WF db)
    (h : setItem db k v = .ok db') : WF db' := by
  unfold setItem at h
  cases hg : get db k with
  | some w =>
    simp only [hg] at h
    cases h
    exact hWF
  | none =>
    simp only [hg] at h
    cases hv : db.vals.find? (fun r => r.2 == v) with
    | some row =>
      simp only [hv] at h
      obtain ⟨hk, hdb'⟩ := insertKey_ok_inv h
      subst hdb'
      exact WF_addKey hWF hk ⟨row, List.mem_of_find?_eq_some hv, rfl⟩
    | none =>
      have hnotin : v ∉ db.vals.map Prod.snd := by
        intro hm
        obtain ⟨r, hr, hrv⟩ := List.mem_map.mp hm
        have hne := List.find?_eq_none.mp hv r hr
        simp [hrv] at hne
      have h2 : (db.vals ++ [(nextID db, v)]).find? (fun r => r.2 == v) =
          some (nextID db, v) := by
        rw [List.find?_append, hv]
        simp
      simp only [hv, insertVal_ok hnotin, h2] at h
      obtain ⟨hk, hdb'⟩ := insertKey_ok_inv h
      subst hdb'
      exact WF_addKey (WF_addVal hWF hnotin) hk
        ⟨(nextID db, v), by simp, rfl⟩

theorem WF_insertVals {db db' : DB} {es : List String} (hWF : WF db)
    (h : insertVals db es = .ok db') : WF db' := by
  induction es generalizing db with
  | nil => cases h; exact hWF
  | cons v rest ih =>
    simp only [insertVals] at h
    cases hiv : insertVal db v with
    | error e => rw [hiv] at h; cases h
    | ok db1 =>
      rw [hiv] at h
      obtain ⟨hnv, hdb1⟩ := insertVal_ok_inv hiv
      subst hdb1
      exact ih (WF_addVal hWF hnv) h

theorem WF_insertKeys {db db' : DB} {es : List KeyRow} (hWF : WF db)
    (hvid : ∀ e ∈ es, ∃ s ∈ db.vals, s.1 = e.2)
    (h : insertKeys db es = .ok db') : WF db' := by
  induction es generalizing db with
  | nil => cases h; exact hWF
  | cons e rest ih =>
    simp only [insertKeys] at h
    cases hik : insertKey db e.1 e.2 with
    | error err => rw [hik] at h; cases h
    | ok db1 =>
      rw [hik] at h
      obtain ⟨hke, hdb1⟩ := insertKey_ok_inv hik
      subst hdb1
      exact ih (WF_addKey hWF hke (hvid e (List.mem_cons_self _ _)))
        (fun e' he' => hvid e' (List.mem_cons_of_mem _ he')) h

theorem nodup_map_filter {α β : Type} {l : List α} {f : α → β} {q : α → Bool}
    (h : (l.map f).Nodup) : ((l.filter q).map f).Nodup :=
  h.sublist ((l.filter_sublist).map f)

theorem WF_putmany {db db' : DB} {m : List (String × String)} (hWF : WF db)
    (h : putmany db m = .ok db') : WF db' := by
  simp only [putmany] at h
  split at h
  · cases h
  · rename_i db1 hiv
    split at h
    · cases h
    · rename_i ents hke
      have hWF1 : WF db1 := WF_insertVals hWF hiv
      obtain ⟨-, -, ⟨l, hpre⟩, -⟩ := insertVals_ok_inv hiv
      apply WF_insertKeys hWF1 ?_ h
      intro e he
      obtain ⟨p, hp, -, hid⟩ := keyEntries_mem hke e he
      rcases dictOfRows_mem hid with ⟨r, hr, hri⟩ | hinit
      · exact ⟨r, List.mem_of_mem_filter hr, hri⟩
      · rcases dictOfRows_mem hinit with ⟨r, hr, hri⟩ | hnone
        · refine ⟨r, ?_, hri⟩
          rw [hpre]
          exact List.mem_append_left _ (List.mem_of_mem_filter hr)
        · cases hnone

/-! ## Claim C5 -/

/-- Claim C5: every public operation preserves the state invariants — every
key row references an existing value row, no two value rows hold equal
content, no two key rows hold an equal key.  `put` and `putmany` preserve
`WF` whenever they return a state; `delete` always fails with
`NotImplementedError` and never produces a state; reads (`get`,
`__getitem__`) are pure functions of the state and modify nothing by
construction. -/
theorem ops_preserve_invariants :
    (∀ db db' k v, WF db → put db k v = .ok db' → WF db') ∧
    (∀ db db' m, WF db → putmany db m = .ok db' → WF db') ∧
    (∀ db k, delete db k = .error .notImplemented) :=
  ⟨fun _ _ _ _ hWF h => WF_setItem hWF h,
   fun _ _ _ hWF h => WF_putmany hWF h,
   fun _ _ => rfl⟩

/-- Concrete instance of `ops_preserve_invariants`: the state after
`put "a" "x"` on the empty store is well-formed. -/
theorem ops_preserve_invariants_w : WF (⟨[(1, "x")], [("a", 1)]⟩ : DB) :=
  ops_preserve_invariants.1 emptyDB ⟨[(1, "x")], [("a", 1)]⟩ "a" "x"
    (by decide) (by rfl)

/-! ## Characterization of a successful `putmany` -/

theorem db1_snd_nodup {db : DB} {m : List (String × String)} (hWF : WF db)
    (hnew : (newVals db m).Nodup) :
    ((db.vals ++ numberVals (nextID db) (newVals db m)).map Prod.snd).Nodup := by
  rw [List.map_append, numberVals_map_snd, List.nodup_append]
  refine ⟨hWF.2.1, hnew, ?_⟩
  intro x hx hy
  exact (mem_newVals.mp hy).2 hx

theorem db1_fst_nodup {db : DB} {m : List (String × String)} (hWF : WF db) :
    ((db.vals ++ numberVals (nextID db) (newVals db m)).map Prod.fst).Nodup := by
  rw [List.map_append, List.nodup_append]
  refine ⟨hWF.1, numberVals_fst_nodup _ _, ?_⟩
  intro x hx hy
  obtain ⟨r, hr, hrx⟩ := List.mem_map.mp hx
  obtain ⟨s, hs, hsx⟩ := List.mem_map.mp hy
  have h1 := id_lt_nextID hr
  have h2 := (mem_numberVals hs).1
  omega

theorem entries_eq_newVals (db : DB) (m : List (String × String)) :
    (m.map Prod.snd).filter (fun v =>
      (dictOfRows (db.vals.filter
        (fun r => ((m.map Prod.snd).contains r.2))) (fun _ => none) v).isNone) =
      newVals db m := by
  have hInone : ∀ v ∈ m.map Prod.snd,
      (dictOfRows (db.vals.filter
        (fun r => ((m.map Prod.snd).contains r.2))) (fun _ => none) v = none ↔
        v ∉ db.vals.map Prod.snd) := by
    intro v hv
    rw [dictOfRows_eq_none_iff]
    constructor
    · rintro ⟨hall, -⟩ hm
      obtain ⟨r, hr, hrv⟩ := List.mem_map.mp hm
      exact hall r (List.mem_filter.mpr
        ⟨hr, by rw [hrv]; exact contains_iff.mpr hv⟩) hrv
    · intro hm
      refine ⟨?_, rfl⟩
      intro r hr hrv
      exact hm (hrv ▸ List.mem_map_of_mem Prod.snd (List.mem_of_mem_filter hr))
  unfold newVals
  apply List.filter_congr
  intro v hv
  by_cases hm : v ∈ db.vals.map Prod.snd
  · have h2 : (dictOfRows (db.vals.filter
        (fun r => ((m.map Prod.snd).contains r.2))) (fun _ => none) v).isNone
          = false := by
      cases hd : dictOfRows (db.vals.filter
        (fun r => ((m.map Prod.snd).contains r.2))) (fun _ => none) v with
      | none => exact absurd hm ((hInone v hv).mp hd)
      | some i => rfl
    rw [h2, contains_iff.mpr hm]
    rfl
  · have h1 : dictOfRows (db.vals.filter
        (fun r => ((m.map Prod.snd).contains r.2))) (fun _ => none) v = none :=
      (hInone v hv).mpr hm
    rw [h1, contains_eq_false_iff.mpr hm]
    rfl

theorem putmany_ok_of {db : DB} {m : List (String × String)} (hWF : WF db)
    (hkeys : (m.map Prod.fst).Nodup) (hnew : (newVals db m).Nodup) :
    putmany db m = .ok (batchResult db m) := by
  simp only [putmany]
  set vs := m.map Prod.snd with hvs
  set I := dictOfRows (db.vals.filter (fun r => vs.contains r.2))
    (fun _ => none) with hI
  have hentries : vs.filter (fun v => (I v).isNone) = newVals db m := by
    rw [hI, hvs]
    exact entries_eq_newVals db m
  rw [hentries]
  have hfresh : ∀ v ∈ newVals db m, v ∉ db.vals.map Prod.snd :=
    fun v hv => (mem_newVals.mp hv).2
  simp only [insertVals_ok_of hnew hfresh]
  set N := numberVals (nextID db) (newVals db m) with hN
  have hids1 : ∀ v ∈ vs,
      dictOfRows ((db.vals ++ N).filter
        (fun r => (newVals db m).contains r.2)) I v =
        some (idOf (db.vals ++ N) v) := by
    intro v hv
    have hnd2 : (((db.vals ++ N).filter
        (fun r => (newVals db m).contains r.2)).map Prod.snd).Nodup := by
      rw [hN]
      exact nodup_map_filter (db1_snd_nodup hWF hnew)
    rw [dictOfRows_eq_find? hnd2]
    by_cases hm : v ∈ db.vals.map Prod.snd
    · have hfilt : ((db.vals ++ N).filter
          (fun r => (newVals db m).contains r.2)).find?
          (fun r => r.2 == v) = none := by
        rw [List.find?_eq_none]
        intro r hr hc
        have hrf := List.of_mem_filter hr
        have hrnew : r.2 ∈ newVals db m := contains_iff.mp (by simpa using hrf)
        exact (mem_newVals.mp hrnew).2 ((eq_of_beq hc) ▸ hm)
      rw [hfilt]
      obtain ⟨r0, hr0find, hr0mem, hr0id, hr0v⟩ := idOf_spec hm
      have hIv : I v = some r0.1 := by
        rw [hI, dictOfRows_eq_find? (nodup_map_filter hWF.2.1)]
        rw [find?_filter_eq ?side, hr0find]
        case side =>
          intro r hr hc
          have : r.2 = v := eq_of_beq hc
          rw [this]
          exact contains_iff.mpr hv
      rw [hIv, idOf_append_left hr0find, hr0id]
    · have hvnew : v ∈ newVals db m := mem_newVals.mpr ⟨hv, hm⟩
      have hAfind : db.vals.find? (fun r => r.2 == v) = none :=
        find?_snd_eq_none hm
      have hNfind : N.find? (fun r => r.2 == v) ≠ none := by
        intro hn
        have hvN : v ∈ N.map Prod.snd := by
          rw [hN, numberVals_map_snd]
          exact hvnew
        obtain ⟨r, hr, hrv⟩ := List.mem_map.mp hvN
        exact absurd (by simp [hrv]) (List.find?_eq_none.mp hn r hr)
      obtain ⟨rN, hrN⟩ := Option.ne_none_iff_exists'.mp hNfind
      have hdbfind : (db.vals ++ N).find? (fun r => r.2 == v) = some rN := by
        rw [List.find?_append, hAfind, hrN]
        rfl
      have hfilt : ((db.vals ++ N).filter
          (fun r => (newVals db m).contains r.2)).find?
          (fun r => r.2 == v) = some rN := by
        rw [find?_filter_eq ?side2, hdbfind]
        case side2 =>
          intro r hr hc
          have : r.2 = v := eq_of_beq hc
          rw [this]
          exact contains_iff.mpr hvnew
      rw [hfilt]
      have hidv : idOf (db.vals ++ N) v = rN.1 := by
        unfold idOf
        rw [hdbfind]
      rw [hidv]
  have htoAdd : m.filter (fun p => !(((db.keys.map Prod.fst).filter
      (fun k => (m.map Prod.fst).contains k)).contains p.1)) =
      m.filter (fun p => !((db.keys.map Prod.fst).contains p.1)) := by
    apply List.filter_congr
    intro p hp
    have hpk : (m.map Prod.fst).contains p.1 = true :=
      contains_iff.mpr (List.mem_map_of_mem Prod.fst hp)
    by_cases hmem : p.1 ∈ db.keys.map Prod.fst
    · have h1 : ((db.keys.map Prod.fst).filter
          (fun k => (m.map Prod.fst).contains k)).contains p.1 = true :=
        contains_iff.mpr (List.mem_filter.mpr ⟨hmem, hpk⟩)
      rw [h1, contains_iff.mpr hmem]
    · have h1 : ((db.keys.map Prod.fst).filter
          (fun k => (m.map Prod.fst).contains k)).contains p.1 = false := by
        rw [contains_eq_false_iff]
        intro hmm
        exact hmem (List.mem_of_mem_filter hmm)
      rw [h1, contains_eq_false_iff.mpr hmem]
  rw [htoAdd]
  have hke := @keyEntries_ok_of
    (dictOfRows ((db.vals ++ N).filter
      (fun r => (newVals db m).contains r.2)) I)
    (m.filter (fun p => !((db.keys.map Prod.fst).contains p.1)))
    (fun p => idOf (db.vals ++ N) p.2)
    (fun p hp => hids1 p.2
      (List.mem_map_of_mem Prod.snd (List.mem_of_mem_filter hp)))
  simp only [hke]
  have hknd : (((m.filter (fun p => !((db.keys.map Prod.fst).contains p.1))).map
      (fun p => (p.1, idOf (db.vals ++ N) p.2))).map Prod.fst).Nodup := by
    rw [List.map_map]
    exact nodup_map_filter hkeys
  have hka : ∀ e ∈ (m.filter
      (fun p => !((db.keys.map Prod.fst).contains p.1))).map
        (fun p => (p.1, idOf (db.vals ++ N) p.2)),
      e.1 ∉ db.keys.map Prod.fst := by
    intro e he
    obtain ⟨p, hp, hpe⟩ := List.mem_map.mp he
    have hpf := List.of_mem_filter hp
    rw [← hpe]
    simp only [Bool.not_eq_true'] at hpf
    exact contains_eq_false_iff.mp hpf
  rw [@insertKeys_ok_of ⟨db.vals ++ N, db.keys⟩ _ hknd hka]
  simp only [batchResult, hN]

/-! ## Characterization of the sequential `put` loop -/

theorem DB_eq {v1 v2 : List ValRow} {k1 k2 : List KeyRow}
    (hv : v1 = v2) (hk : k1 = k2) : (⟨v1, k1⟩ : DB) = ⟨v2, k2⟩ := by
  rw [hv, hk]

theorem filter_keys_snoc {ks : List KeyRow} {k : String} {i : Nat}
    {rest : List (String × String)} (hk : k ∉ rest.map Prod.fst) :
    rest.filter (fun p => !(((ks ++ [(k, i)]).map Prod.fst).contains p.1)) =
      rest.filter (fun p => !((ks.map Prod.fst).contains p.1)) := by
  apply List.filter_congr
  intro p hp
  have hpk : p.1 ≠ k := fun he => hk (he ▸ List.mem_map_of_mem Prod.fst hp)
  rw [List.map_append]
  by_cases hmem : p.1 ∈ ks.map Prod.fst
  · rw [contains_iff.mpr (List.mem_append_left _ hmem), contains_iff.mpr hmem]
  · have h1 : ((ks.map Prod.fst) ++ [(k, i)].map Prod.fst).contains p.1 = false := by
      rw [contains_eq_false_iff]
      intro hm
      rcases List.mem_append.mp hm with hm | hm
      · exact hmem hm
      · simp at hm
        exact hpk hm
    rw [h1, contains_eq_false_iff.mpr hmem]

theorem nextID_keys_irrel (db : DB) (ks : List KeyRow) :
    nextID ⟨db.vals, ks⟩ = nextID db := rfl

theorem newVals_keys_irrel (db : DB) (ks : List KeyRow)
    (m : List (String × String)) : newVals ⟨db.vals, ks⟩ m = newVals db m := rfl

theorem batchResult_cons_old {db : DB} {k v : String} {row : ValRow}
    {rest : List (String × String)}
    (hfind : db.vals.find? (fun r => r.2 == v) = some row)
    (hk : k ∉ db.keys.map Prod.fst) (hkr : k ∉ rest.map Prod.fst) :
    batchResult (⟨db.vals, db.keys ++ [(k, row.1)]⟩ : DB) rest =
      batchResult db ((k, v) :: rest) := by
  have hvmem : v ∈ db.vals.map Prod.snd := by
    have h1 := List.find?_some hfind
    have h2 := List.mem_of_find?_eq_some hfind
    exact (eq_of_beq h1) ▸ List.mem_map_of_mem Prod.snd h2
  have hnv : newVals db ((k, v) :: rest) = newVals db rest := by
    rw [newVals_cons, if_pos hvmem]
  simp only [batchResult, hnv, nextID_keys_irrel, newVals_keys_irrel]
  apply DB_eq rfl
  rw [filter_keys_snoc hkr, List.filter_cons,
    if_pos (by rw [contains_eq_false_iff.mpr hk]; rfl), List.map_cons]
  rw [idOf_append_left hfind]
  rw [List.append_assoc]
  rfl

theorem batchResult_cons_new {db : DB} {k v : String}
    {rest : List (String × String)}
    (hfind : db.vals.find? (fun r => r.2 == v) = none)
    (hk : k ∉ db.keys.map Prod.fst) (hkr : k ∉ rest.map Prod.fst)
    (hvr : v ∉ newVals db rest) :
    batchResult
        (⟨db.vals ++ [(nextID db, v)], db.keys ++ [(k, nextID db)]⟩ : DB)
        rest =
      batchResult db ((k, v) :: rest) := by
  have hvmem : v ∉ db.vals.map Prod.snd := by
    intro hm
    obtain ⟨r, hr, hrv⟩ := List.mem_map.mp hm
    have hne := List.find?_eq_none.mp hfind r hr
    simp [hrv] at hne
  have hnv : newVals db ((k, v) :: rest) = v :: newVals db rest := by
    rw [newVals_cons, if_neg hvmem]
  have hnv2 := @newVals_addVal db v (db.keys ++ [(k, nextID db)]) rest hvr
  have hnid := nextID_snoc db v (db.keys ++ [(k, nextID db)])
  simp only [batchResult, hnv, hnv2, hnid]
  have hvals : (db.vals ++ [(nextID db, v)]) ++
      numberVals (nextID db + 1) (newVals db rest) =
      db.vals ++ numberVals (nextID db) (v :: newVals db rest) := by
    rw [List.append_assoc]
    rfl
  apply DB_eq hvals
  rw [hvals, filter_keys_snoc hkr, List.filter_cons,
    if_pos (by rw [contains_eq_false_iff.mpr hk]; rfl), List.map_cons]
  have hid : idOf (db.vals ++ numberVals (nextID db) (v :: newVals db rest)) v
      = nextID db := by
    rw [idOf_append_right hfind]
    unfold numberVals idOf
    rw [List.find?_cons_of_pos _ (by simp)]
  rw [hid, List.append_assoc]
  rfl

theorem seqPut_ok_of {db : DB} {m : List (String × String)} (hWF : WF db)
    (hkeys : (m.map Prod.fst).Nodup)
    (habs : ∀ p ∈ m, p.1 ∉ db.keys.map Prod.fst)
    (hnew : (newVals db m).Nodup) :
    seqPut db m = .ok (batchResult db m) := by
  induction m generalizing db with
  | nil =>
    simp only [seqPut, batchResult, newVals, numberVals]
    simp
  | cons p rest ih =>
    obtain ⟨k, v⟩ := p
    rw [List.map_cons, List.nodup_cons] at hkeys
    have hkabs : k ∉ db.keys.map Prod.fst := habs (k, v) (List.mem_cons_self _ _)
    by_cases hvmem : v ∈ db.vals.map Prod.snd
    · obtain ⟨row, hfind, hrowmem, hrowid, hrowv⟩ := idOf_spec hvmem
      have hstep := setItem_old hfind hkabs
      simp only [seqPut, hstep]
      have hWFk : WF (⟨db.vals, db.keys ++ [(k, row.1)]⟩ : DB) :=
        WF_addKey hWF hkabs ⟨row, hrowmem, rfl⟩
      have habs' : ∀ q ∈ rest,
          q.1 ∉ (⟨db.vals, db.keys ++ [(k, row.1)]⟩ : DB).keys.map Prod.fst := by
        intro q hq
        rw [List.map_append]
        intro hm
        rcases List.mem_append.mp hm with hm | hm
        · exact habs q (List.mem_cons_of_mem _ hq) hm
        · simp at hm
          have hqm : q.1 ∈ rest.map Prod.fst := List.mem_map_of_mem Prod.fst hq
          rw [hm] at hqm
          exact hkeys.1 hqm
      have hnewrest : newVals db ((k, v) :: rest) = newVals db rest := by
        rw [newVals_cons, if_pos hvmem]
      have hnew' : (newVals (⟨db.vals, db.keys ++ [(k, row.1)]⟩ : DB) rest).Nodup := by
        rw [newVals_keys_irrel]
        exact hnewrest ▸ hnew
      rw [ih hWFk hkeys.2 habs' hnew', batchResult_cons_old hfind hkabs hkeys.1]
    · have hvnot : v ∉ db.vals.map Prod.snd := hvmem
      have hfind : db.vals.find? (fun r => r.2 == v) = none :=
        find?_snd_eq_none hvnot
      have hstep := setItem_new hfind hkabs
      simp only [seqPut, hstep]
      have hnvcons : newVals db ((k, v) :: rest) = v :: newVals db rest := by
        rw [newVals_cons, if_neg hvmem]
      rw [hnvcons, List.nodup_cons] at hnew
      have hWFk : WF (⟨db.vals ++ [(nextID db, v)],
          db.keys ++ [(k, nextID db)]⟩ : DB) :=
        WF_addKey (WF_addVal hWF hvnot) hkabs ⟨(nextID db, v), by simp, rfl⟩
      have habs' : ∀ q ∈ rest,
          q.1 ∉ (⟨db.vals ++ [(nextID db, v)],
            db.keys ++ [(k, nextID db)]⟩ : DB).keys.map Prod.fst := by
        intro q hq
        rw [List.map_append]
        intro hm
        rcases List.mem_append.mp hm with hm | hm
        · exact habs q (List.mem_cons_of_mem _ hq) hm
        · simp at hm
          have hqm : q.1 ∈ rest.map Prod.fst := List.mem_map_of_mem Prod.fst hq
          rw [hm] at hqm
          exact hkeys.1 hqm
      have hnew' : (newVals (⟨db.vals ++ [(nextID db, v)],
          db.keys ++ [(k, nextID db)]⟩ : DB) rest).Nodup := by
        rw [newVals_addVal hnew.1]
        exact hnew.2
      rw [ih hWFk hkeys.2 habs' hnew',
        batchResult_cons_new hfind hkabs hkeys.1 hnew.1]

/-! ## Reads on the batch result -/

theorem batchResult_vals (db : DB) (m : List (String × String)) :
    (batchResult db m).vals =
      db.vals ++ numberVals (nextID db) (newVals db m) := rfl

theorem batchResult_keys (db : DB) (m : List (String × String)) :
    (batchResult db m).keys = db.keys ++
      (m.filter (fun p => !((db.keys.map Prod.fst).contains p.1))).map
        (fun p =>
          (p.1, idOf (db.vals ++ numberVals (nextID db) (newVals db m)) p.2)) :=
  rfl

theorem find?_key_map {m : List (String × String)} {g : String × String → Nat}
    {k : String} :
    (m.map (fun p => (p.1, g p))).find? (fun r => r.1 == k) =
      (m.find? (fun p => p.1 == k)).map (fun p => (p.1, g p)) := by
  induction m with
  | nil => rfl
  | cons q rest ih =>
    rw [List.map_cons]
    by_cases hq : (q.1 == k) = true
    · rw [List.find?_cons_of_pos _ (by simpa using hq),
        List.find?_cons_of_pos (p := fun p => p.1 == k) rest hq]
      rfl
    · rw [List.find?_cons_of_neg _ (by simpa using hq),
        List.find?_cons_of_neg (p := fun p => p.1 == k) rest hq]
      exact ih

theorem get_batchResult {db : DB} {m : List (String × String)} (hWF : WF db)
    (habs : ∀ p ∈ m, p.1 ∉ db.keys.map Prod.fst) (k : String) :
    get (batchResult db m) k =
      match m.find? (fun p => p.1 == k) with
      | some p => some p.2
      | none => get db k := by
  have hfill : m.filter (fun p => !((db.keys.map Prod.fst).contains p.1)) = m := by
    apply List.filter_eq_self.mpr
    intro p hp
    rw [contains_eq_false_iff.mpr (habs p hp)]
    rfl
  have hkeys' : (batchResult db m).keys = db.keys ++
      m.map (fun p =>
        (p.1, idOf (db.vals ++ numberVals (nextID db) (newVals db m)) p.2)) := by
    rw [batchResult_keys, hfill]
  cases hfk : m.find? (fun p => p.1 == k) with
  | some p0 =>
    have hp0m : p0 ∈ m := List.mem_of_find?_eq_some hfk
    have hp0k : p0.1 = k := by simpa using List.find?_some hfk
    have h1 : (batchResult db m).keys.find? (fun r => r.1 == k) =
        some (p0.1, idOf (db.vals ++ numberVals (nextID db) (newVals db m)) p0.2) := by
      rw [hkeys', List.find?_append, find?_fst_eq_none (hp0k ▸ habs p0 hp0m),
        find?_key_map, hfk]
      rfl
    have hvin : p0.2 ∈ (db.vals ++ numberVals (nextID db) (newVals db m)).map
        Prod.snd := by
      rw [List.map_append, numberVals_map_snd]
      by_cases hm : p0.2 ∈ db.vals.map Prod.snd
      · exact List.mem_append_left _ hm
      · exact List.mem_append_right _
          (mem_newVals.mpr ⟨List.mem_map_of_mem Prod.snd hp0m, hm⟩)
    obtain ⟨r, hrfind, hrmem, hrid, hrv⟩ := idOf_spec hvin
    have h2 : (db.vals ++ numberVals (nextID db) (newVals db m)).find?
        (fun s => s.1 == idOf (db.vals ++ numberVals (nextID db) (newVals db m)) p0.2) =
        some r := by
      rw [← hrid]
      exact find?_of_mem_nodup_fst (db1_fst_nodup hWF) hrmem
    simp only [get, h1, batchResult_vals, h2, hrv]
  | none =>
    have hmapnone : (m.map (fun p =>
        (p.1, idOf (db.vals ++ numberVals (nextID db) (newVals db m)) p.2))).find?
        (fun r => r.1 == k) = none := by
      rw [find?_key_map, hfk]
      rfl
    cases hdk : db.keys.find? (fun r => r.1 == k) with
    | none =>
      have h1 : (batchResult db m).keys.find? (fun r => r.1 == k) = none := by
        rw [hkeys', List.find?_append, hdk, hmapnone]
        rfl
      simp only [get, h1, hdk]
    | some r =>
      have h1 : (batchResult db m).keys.find? (fun r => r.1 == k) = some r := by
        rw [hkeys', List.find?_append, hdk]
        rfl
      obtain ⟨s, hs, hsi⟩ := hWF.2.2.2 r (List.mem_of_find?_eq_some hdk)
      have hne : db.vals.find? (fun t => t.1 == r.2) ≠ none := by
        intro hn
        exact absurd (by simp [hsi]) (List.find?_eq_none.mp hn s hs)
      obtain ⟨s', hs'⟩ := Option.ne_none_iff_exists'.mp hne
      have h2 : (db.vals ++ numberVals (nextID db) (newVals db m)).find?
          (fun t => t.1 == r.2) = some s' := by
        rw [List.find?_append, hs']
        rfl
      simp only [get, h1, batchResult_vals, h2, hdk, hs']

theorem find?_key_perm {m m' : List (String × String)} (hperm : m.Perm m')
    (hkeys : (m.map Prod.fst).Nodup) (k : String) :
    m.find? (fun p => p.1 == k) = m'.find? (fun p => p.1 == k) := by
  cases hfk : m.find? (fun p => p.1 == k) with
  | none =>
    refine (List.find?_eq_none.mpr ?_).symm
    intro p hp
    exact List.find?_eq_none.mp hfk p (hperm.mem_iff.mpr hp)
  | some p =>
    have hp : p ∈ m := List.mem_of_find?_eq_some hfk
    have hpk : p.1 = k := by simpa using List.find?_some hfk
    have hp' : p ∈ m' := hperm.mem_iff.mp hp
    have hne : m'.find? (fun q => q.1 == k) ≠ none := by
      intro hn
      exact absurd (by simp [hpk]) (List.find?_eq_none.mp hn p hp')
    obtain ⟨q, hq⟩ := Option.ne_none_iff_exists'.mp hne
    have hqm : q ∈ m := hperm.mem_iff.mpr (List.mem_of_find?_eq_some hq)
    have hqk : q.1 = k := by simpa using List.find?_some hq
    rw [hq, eq_of_mem_nodup_fst hkeys hqm hp (hqk.trans hpk.symm)]

/-! ## Claim C2 -/

/-- Claim C2 (amended): for every mapping `m` with distinct keys, none of
which exists in the store, and in which no two distinct keys share a value
absent from the store, `putmany m` produces exactly the same final store
state as calling `put k v` sequentially for each pair of `m` in the same
iteration order; moreover the resulting reads are determined by `m` as a
set of pairs, so all `get` results are independent of the iteration order
of `m` (the concrete rowid assignment, however, does follow the order). -/
theorem putmany_eq_seqPut (db : DB) (m : List (String × String)) (hWF : WF db)
    (hkeys : (m.map Prod.fst).Nodup)
    (habs : ∀ p ∈ m, p.1 ∉ db.keys.map Prod.fst)
    (hnew : (newVals db m).Nodup) :
    putmany db m = seqPut db m ∧
    (∀ m', m.Perm m' → ∀ k db1 db2,
      putmany db m = .ok db1 → putmany db m' = .ok db2 →
      get db1 k = get db2 k) := by
  constructor
  · rw [putmany_ok_of hWF hkeys hnew, seqPut_ok_of hWF hkeys habs hnew]
  · intro m' hperm k db1 db2 h1 h2
    have hkeys' : (m'.map Prod.fst).Nodup :=
      (hperm.map Prod.fst).nodup_iff.mp hkeys
    have habs' : ∀ p ∈ m', p.1 ∉ db.keys.map Prod.fst :=
      fun p hp => habs p (hperm.mem_iff.mpr hp)
    have hnewperm : (newVals db m).Perm (newVals db m') :=
      (hperm.map Prod.snd).filter _
    have hnew' : (newVals db m').Nodup := hnewperm.nodup_iff.mp hnew
    rw [putmany_ok_of hWF hkeys hnew] at h1
    rw [putmany_ok_of hWF hkeys' hnew'] at h2
    cases h1
    cases h2
    rw [get_batchResult hWF habs k, get_batchResult hWF habs' k,
      find?_key_perm hperm hkeys k]

/-- Concrete instance of `putmany_eq_seqPut` on the empty store. -/
theorem putmany_eq_seqPut_w :
    putmany emptyDB [("a", "X"), ("b", "Y")] =
      seqPut emptyDB [("a", "X"), ("b", "Y")] ∧
    (∀ m', [("a", "X"), ("b", "Y")].Perm m' → ∀ k db1 db2,
      putmany emptyDB [("a", "X"), ("b", "Y")] = .ok db1 →
      putmany emptyDB m' = .ok db2 →
      get db1 k = get db2 k) :=
  putmany_eq_seqPut emptyDB [("a", "X"), ("b", "Y")] (by decide) (by decide)
    (by simp [emptyDB]) (by decide)

/-! ## Claim C10 -/

theorem filter_snd_nodup_inj {m : List (String × String)} {q : String → Bool}
    (hnd : ((m.map Prod.snd).filter q).Nodup) {p r : String × String}
    (hp : p ∈ m) (hr : r ∈ m) (hne : p ≠ r) (hv : p.2 = r.2)
    (hq : q p.2 = true) : False := by
  induction m with
  | nil => cases hp
  | cons x rest ih =>
    rw [List.map_cons, List.filter_cons] at hnd
    rcases List.mem_cons.mp hp with hpx | hp'
    · rcases List.mem_cons.mp hr with hrx | hr'
      · exact hne (hpx.trans hrx.symm)
      · have hqx : q x.2 = true := by rw [← hpx]; exact hq
        rw [if_pos hqx, List.nodup_cons] at hnd
        apply hnd.1
        have hxr : x.2 = r.2 := by rw [← hpx]; exact hv
        rw [hxr]
        exact List.mem_filter.mpr ⟨List.mem_map_of_mem Prod.snd hr',
          by rw [← hxr, ← hpx]; exact hq⟩
    · rcases List.mem_cons.mp hr with hrx | hr'
      · have hqx : q x.2 = true := by rw [← hrx, ← hv]; exact hq
        rw [if_pos hqx, List.nodup_cons] at hnd
        apply hnd.1
        have hxp : x.2 = p.2 := by rw [← hrx]; exact hv.symm
        rw [hxp]
        exact List.mem_filter.mpr ⟨List.mem_map_of_mem Prod.snd hp', hq⟩
      · by_cases hqx : q x.2 = true
        · rw [if_pos hqx, List.nodup_cons] at hnd
          exact ih hnd.2 hp' hr'
        · rw [if_neg hqx] at hnd
          exact ih hnd hp' hr'

theorem putmany_ok_newVals_nodup {db db' : DB} {m : List (String × String)}
    (h : putmany db m = .ok db') : (newVals db m).Nodup := by
  simp only [putmany] at h
  split at h
  · cases h
  · rename_i db1 hiv
    obtain ⟨hnd, -, -, -⟩ := insertVals_ok_inv hiv
    rwa [entries_eq_newVals db m] at hnd

/-- Claim C10 (amended): for every mapping `m` (with distinct keys)
containing a pair `(k, v)` whose key is already present in the store while
the value `v` is absent, whenever `putmany m` succeeds it inserts a new
value row for `v` that is referenced by zero key rows (the key row for `k`
is skipped), whereas the single-item `put k v` leaves the store entirely
unchanged.  (When `v` is shared by a second new pair, `putmany` instead
raises a uniqueness violation — hence the success hypothesis.) -/
theorem putmany_orphan (db db' : DB) (m : List (String × String))
    (k v : String) (hWF : WF db) (hkeys : (m.map Prod.fst).Nodup)
    (hmem : (k, v) ∈ m) (hpres : k ∈ db.keys.map Prod.fst)
    (hvnew : v ∉ db.vals.map Prod.snd)
    (hok : putmany db m = .ok db') :
    (∃ i, (i, v) ∈ db'.vals ∧ ∀ r ∈ db'.keys, r.2 ≠ i) ∧
      put db k v = .ok db := by
  have hnew : (newVals db m).Nodup := putmany_ok_newVals_nodup hok
  rw [putmany_ok_of hWF hkeys hnew] at hok
  cases hok
  refine ⟨?_, ?_⟩
  · have hvN : v ∈ newVals db m :=
      mem_newVals.mpr ⟨List.mem_map_of_mem Prod.snd hmem, hvnew⟩
    have hvin : v ∈ (db.vals ++ numberVals (nextID db) (newVals db m)).map
        Prod.snd := by
      rw [List.map_append, numberVals_map_snd]
      exact List.mem_append_right _ hvN
    obtain ⟨r, hrfind, hrmem, hrid, hrv⟩ := idOf_spec hvin
    refine ⟨r.1, ?_, ?_⟩
    · rw [batchResult_vals]
      have hre : (r.1, v) = r := by rw [← hrv]
      rw [hre]
      exact hrmem
    · intro s hs hsi
      rw [batchResult_keys] at hs
      rcases List.mem_append.mp hs with hsold | hsnew
      · obtain ⟨t, ht, hti⟩ := hWF.2.2.2 s hsold
        have hrN : r ∈ numberVals (nextID db) (newVals db m) := by
          rcases List.mem_append.mp hrmem with h | h
          · exact absurd (hrv ▸ List.mem_map_of_mem Prod.snd h) hvnew
          · exact h
        have h1 : nextID db ≤ r.1 := (mem_numberVals hrN).1
        have h2 : t.1 < nextID db := id_lt_nextID ht
        omega
      · obtain ⟨p, hp, hpe⟩ := List.mem_map.mp hsnew
        have hpf := List.of_mem_filter hp
        have hpnk : p.1 ∉ db.keys.map Prod.fst :=
          contains_eq_false_iff.mp (by simpa using hpf)
        have hpm : p ∈ m := List.mem_of_mem_filter hp
        have hne : p ≠ (k, v) := fun he => hpnk (by rw [he]; exact hpres)
        have hpv : p.2 ≠ v := by
          intro he
          have hq : ((db.vals.map Prod.snd).contains p.2) = false := by
            rw [he]
            exact contains_eq_false_iff.mpr hvnew
          exact filter_snd_nodup_inj hnew hpm hmem hne (by rw [he]) (by simpa using hq)
        have hp2in : p.2 ∈ (db.vals ++ numberVals (nextID db)
            (newVals db m)).map Prod.snd := by
          rw [List.map_append, numberVals_map_snd]
          by_cases hm2 : p.2 ∈ db.vals.map Prod.snd
          · exact List.mem_append_left _ hm2
          · exact List.mem_append_right _
              (mem_newVals.mpr ⟨List.mem_map_of_mem Prod.snd hpm, hm2⟩)
        obtain ⟨rq, hrqfind, hrqmem, hrqid, hrqv⟩ := idOf_spec hp2in
        have hrqne : rq ≠ r := fun he => hpv (by rw [← hrqv, he, hrv])
        have hfstne : rq.1 ≠ r.1 :=
          fun he => hrqne (eq_of_mem_nodup_fst (db1_fst_nodup hWF) hrqmem hrmem he)
        have hs2 : s.2 = idOf (db.vals ++ numberVals (nextID db)
            (newVals db m)) p.2 := by
          rw [← hpe]
        exact hfstne (hrqid.trans (hs2.symm.trans hsi))
  · obtain ⟨w, hw⟩ := get_some_of_mem hWF hpres
    exact setItem_noop hw

/-- Concrete instance of `putmany_orphan`: in a store mapping "kp" to "w",
`putmany [("kp", "v")]` inserts the orphan value row `(2, "v")` while the
key row is skipped, and `put "kp" "v"` is a no-op. -/
theorem putmany_orphan_w :
    (∃ i, (i, "v") ∈ (⟨[(1, "w"), (2, "v")], [("kp", 1)]⟩ : DB).vals ∧
      ∀ r ∈ (⟨[(1, "w"), (2, "v")], [("kp", 1)]⟩ : DB).keys, r.2 ≠ i) ∧
      put (⟨[(1, "w")], [("kp", 1)]⟩ : DB) "kp" "v" =
        .ok (⟨[(1, "w")], [("kp", 1)]⟩ : DB) :=
  putmany_orphan ⟨[(1, "w")], [("kp", 1)]⟩ ⟨[(1, "w"), (2, "v")], [("kp", 1)]⟩
    [("kp", "v")] "kp" "v" (by decide) (by decide) (by decide) (by decide)
    (by decide) (by rfl)

end SQLiteKV
